import Mathlib

/-!
Verification of the WhatToPick core (src/main.rs): the indentation-outline
parser `Tree::from_file` and the interactive descent navigator `pick`.

The embedding works over `List Char` lines (one list per line, as produced
by `BufRead::lines`, newline stripped).  File I/O and the terminal prompt
widget (`inquire::Select`) are external collaborators: the prompt is
modelled by a scripted stream of responses, `Option Nat`, where `some i`
is a selected index and `none` is the cancellation error that
`raw_prompt()` returns when the user cancels.
-/

set_option autoImplicit false

namespace WTP

/-- Rust `char::is_whitespace`: the Unicode White_Space property. -/
def rustIsWhitespace (c : Char) : Bool :=
  let n := c.toNat
  (0x09 ≤ n && n ≤ 0x0D) || n == 0x20 || n == 0x85 || n == 0xA0 || n == 0x1680 ||
  (0x2000 ≤ n && n ≤ 0x200A) || n == 0x2028 || n == 0x2029 || n == 0x202F ||
  n == 0x205F || n == 0x3000

/-- Embeds `line.chars().take_while(|c| c.is_whitespace()).count()`. -/
def wsCount (line : List Char) : Nat :=
  (line.takeWhile rustIsWhitespace).length

/-- Rust `char::len_utf8`: number of bytes of the UTF-8 encoding of a char. -/
def utf8Size (c : Char) : Nat :=
  if c.toNat < 0x80 then 1 else if c.toNat < 0x800 then 2
  else if c.toNat < 0x10000 then 3 else 4

/-- Total UTF-8 byte length of a list of chars. -/
def utf8Len (l : List Char) : Nat :=
  (l.map utf8Size).sum

/-- Whether byte offset `b` falls on a char boundary of the UTF-8 encoding of
`line`; Rust string slicing `&line[b..]` panics when it does not. -/
def isUtf8Boundary (line : List Char) (b : Nat) : Bool :=
  (List.range (line.length + 1)).any (fun k => utf8Len (line.take k) == b)

/-- A line whose leading whitespace is the two-byte char U+00A0 (no-break
space, accepted by `char::is_whitespace`), followed by ASCII content. -/
def nbspLine : List Char :=
  [Char.ofNat 0xA0, 'x']

/-- Rust `usize as i32` (main.rs lines 109 and 115, `ws as i32`): wrap the
count into a 32-bit two's-complement value. -/
def asI32 (n : Nat) : Int :=
  ((n : Int) + 2147483648) % 4294967296 - 2147483648

/-- Rust byte slicing `&line[b..]` of the UTF-8 encoding of `line`: `some` of
the char suffix after `b` bytes when `b` falls on a char boundary, `none` when
the slice panics (offset inside a multi-byte char, or past the end). -/
def byteDrop : Nat → List Char → Option (List Char)
  | 0, l => some l
  | _ + 1, [] => none
  | b + 1, c :: rest =>
    if utf8Size c ≤ b + 1 then byteDrop (b + 1 - utf8Size c) rest else none

/-- Embeds `line[ws..].is_empty()` where `ws = wsCount line` is a char count
used as a byte offset: `true` exactly when the byte slice is valid and its
remainder is empty.  When the slice would panic this is `false` (the line is
not skipped: `processLine` returns `none` on it). -/
def isBlank (line : List Char) : Bool :=
  match byteDrop (wsCount line) line with
  | some rest => rest.isEmpty
  | none => false

/-- The `Tree` struct of src/main.rs: `key: String, children: Vec<Tree>`. -/
inductive Tree where
  | mk : List Char → List Tree → Tree

def Tree.key : Tree → List Char
  | .mk k _ => k

def Tree.children : Tree → List Tree
  | .mk _ cs => cs

/-- Embeds `parents.last_mut().unwrap().0.children.push(u)`: append `c` as the
last child of `p`. -/
def appendChild (p c : Tree) : Tree :=
  Tree.mk p.key (p.children ++ [c])

/-- The per-line closing loop of `Tree::from_file`, with the top entry held as
an explicit argument:
`while ws as i32 <= parents.last().unwrap().1 { pop; append to new last }`.
`none` models the panic of `parents.last().unwrap()` when the loop pops the
bottom entry and re-checks its condition on the emptied stack (reachable only
with a wrapped negative `ws as i32`, since the sentinel level is `-1`). -/
def closeGo (ws : Int) (top : Tree × Int) : List (Tree × Int) → Option (List (Tree × Int))
  | [] => if ws ≤ top.2 then none else some [top]
  | (p, pl) :: r =>
    if ws ≤ top.2 then closeGo ws (appendChild p top.1, pl) r
    else some (top :: (p, pl) :: r)

/-- The closing loop on a whole stack (head of the list = top of the Vec);
on an empty stack the condition's `last().unwrap()` panics (`none`). -/
def closeStack (ws : Int) : List (Tree × Int) → Option (List (Tree × Int))
  | [] => none
  | x :: rest => closeGo ws x rest

/-- The body of the `for line in reader.lines()` loop of `Tree::from_file`:
count leading whitespace in chars, slice the line at that count taken as a
byte offset (`none` models the slice panic), skip the line when the remainder
is empty, otherwise run the closing loop at the wrapped level `ws as i32` and
push the new node, labelled with the byte-slice remainder. -/
def processLine (s : List (Tree × Int)) (line : List Char) : Option (List (Tree × Int)) :=
  let ws := wsCount line
  match byteDrop ws line with
  | none => none
  | some rest =>
    if rest.isEmpty then some s
    else
      match closeStack (asI32 ws) s with
      | none => none
      | some s2 => some ((Tree.mk rest [], asI32 ws) :: s2)

/-- The line loop of `Tree::from_file`; `none` when processing a line panics. -/
def parseLines (s : List (Tree × Int)) : List (List Char) → Option (List (Tree × Int))
  | [] => some s
  | line :: rest =>
    match processLine s line with
    | none => none
    | some s2 => parseLines s2 rest

/-- The stack after the line loop of `Tree::from_file`, started from the
sentinel entry `(Tree::new(""), -1)`. -/
def parseStack (lines : List (List Char)) : Option (List (Tree × Int)) :=
  parseLines [(Tree.mk [] [], -1)] lines

/-- The end-of-input flush `while parents.len() >= 2 { pop; append }`, with the
top entry held as an explicit argument; returns the sole remaining entry. -/
def flushGo (top : Tree × Int) : List (Tree × Int) → Tree × Int
  | [] => top
  | (p, pl) :: r => flushGo (appendChild p top.1, pl) r

/-- Embeds `Tree::from_file`, with the file contents already split into lines
(`BufRead::lines`): `some` of the flushed root, or `none` when the program
panics while parsing. -/
def Tree.from_file (lines : List (List Char)) : Option Tree :=
  match parseStack lines with
  | some (x :: rest) => some (flushGo x rest).1
  | some [] => none
  | none => none

/-- A line of `n` ASCII spaces followed by `a`: its leading-whitespace count
is `n`, in chars and in bytes alike. -/
def wideLine (n : Nat) : List Char :=
  List.replicate n ' ' ++ ['a']

/-- Possible terminal states of one run of `pick`.  `cancelPanic` and
`indexPanic` model Rust panics (fatal process aborts with a panic message):
`cancelPanic` is the `unwrap()` of the error that `raw_prompt()` returns on
user cancellation, `indexPanic` is an out-of-bounds `t.children[i]`.
`blocked` is a model artifact: the scripted response stream ran out while a
prompt was waiting (the real program would block on user input forever). -/
inductive PickOutcome where
  | emptyTree
  | completed (label : List Char)
  | cancelPanic
  | indexPanic
  | blocked
  deriving DecidableEq

/-- The `while !t.children.is_empty()` loop of `pick`, driven by a scripted
stream of prompt responses; returns the terminal state together with the
number of prompts issued (`raw_prompt` calls). -/
def pickGo : List (Option Nat) → Tree → PickOutcome × Nat
  | [], t =>
    match t.children with
    | [] => (PickOutcome.completed t.key, 0)
    | _ :: _ => (PickOutcome.blocked, 1)
  | none :: _, t =>
    match t.children with
    | [] => (PickOutcome.completed t.key, 0)
    | _ :: _ => (PickOutcome.cancelPanic, 1)
  | some i :: rest, t =>
    match t.children with
    | [] => (PickOutcome.completed t.key, 0)
    | _ :: _ =>
      match t.children[i]? with
      | some c => ((pickGo rest c).1, (pickGo rest c).2 + 1)
      | none => (PickOutcome.indexPanic, 1)

/-- Embeds `pick`: the empty-root guard (which prints the informational
message and returns), then the descent loop. -/
def pick (t : Tree) (cs : List (Option Nat)) : PickOutcome × Nat :=
  match t.children with
  | [] => (PickOutcome.emptyTree, 0)
  | _ :: _ => pickGo cs t

/-- Outcomes in which the process terminates cleanly (no panic). -/
def isCleanOutcome : PickOutcome → Bool
  | PickOutcome.emptyTree => true
  | PickOutcome.completed _ => true
  | _ => false

/-- Follow a sequence of child indices down from `t`. -/
def follow : Tree → List Nat → Option Tree
  | t, [] => some t
  | t, i :: is => match t.children[i]? with
    | some c => follow c is
    | none => none

/-- The precondition on a scripted response stream that the spec states for
the choice collaborator: whenever a prompt over the current node's children is
answered with an index, that index is in `[0, children.len())`. -/
def validChoices : List (Option Nat) → Tree → Bool
  | [], _ => true
  | none :: _, _ => true
  | some i :: rest, t =>
    match t.children with
    | [] => true
    | _ :: _ =>
      match t.children[i]? with
      | some c => validChoices rest c
      | none => false

/-- Big-step relation for one navigation pass of `pick`'s loop: from response
stream `cs` at node `t`, the run ends in outcome `o` having visited the nodes
whose keys are listed in `p` (in root-to-leaf order). -/
inductive NavGo : List (Option Nat) → Tree → PickOutcome → List (List Char) → Prop
  | leaf (cs : List (Option Nat)) (t : Tree) :
      t.children = [] → NavGo cs t (PickOutcome.completed t.key) [t.key]
  | blocked (t : Tree) :
      t.children ≠ [] → NavGo [] t PickOutcome.blocked [t.key]
  | cancel (cs : List (Option Nat)) (t : Tree) :
      t.children ≠ [] → NavGo (none :: cs) t PickOutcome.cancelPanic [t.key]
  | oob (cs : List (Option Nat)) (t : Tree) (i : Nat) :
      t.children ≠ [] → t.children[i]? = none →
      NavGo (some i :: cs) t PickOutcome.indexPanic [t.key]
  | step (cs : List (Option Nat)) (t c : Tree) (i : Nat) (o : PickOutcome)
      (p : List (List Char)) :
      t.children ≠ [] → t.children[i]? = some c → NavGo cs c o p →
      NavGo (some i :: cs) t o (t.key :: p)

/-- A two-level example tree used by concrete witnesses:
root -> [a, b -> [c]]. -/
def exTree : Tree :=
  Tree.mk [] [Tree.mk ['a'] [], Tree.mk ['b'] [Tree.mk ['c'] []]]

/-- Index-instrumented copy of `Tree`, used to reason about which source line
each node came from: the key carries the 1-based line number of the line that
produced the node (0 for the synthetic root) next to the stripped text.
Erasing the line number (`eraseT`) recovers `Tree` and the real parser. -/
inductive ITree where
  | mk : Nat × List Char → List ITree → ITree

def ITree.key : ITree → Nat × List Char
  | .mk k _ => k

def ITree.children : ITree → List ITree
  | .mk _ cs => cs

/-- Instrumented `appendChild`. -/
def appendChildI (p c : ITree) : ITree :=
  ITree.mk p.key (p.children ++ [c])

/-- Instrumented closing loop (same code as `closeGo`). -/
def closeGoI (ws : Int) (top : ITree × Int) : List (ITree × Int) → Option (List (ITree × Int))
  | [] => if ws ≤ top.2 then none else some [top]
  | (p, pl) :: r =>
    if ws ≤ top.2 then closeGoI ws (appendChildI p top.1, pl) r
    else some (top :: (p, pl) :: r)

/-- Instrumented closing loop on a whole stack. -/
def closeStackI (ws : Int) : List (ITree × Int) → Option (List (ITree × Int))
  | [] => none
  | x :: rest => closeGoI ws x rest

/-- Instrumented line-loop body: identical to `processLine` except that the
new node records the line number `k` of its source line. -/
def processLineI (s : List (ITree × Int)) (kl : Nat × List Char) : Option (List (ITree × Int)) :=
  let ws := wsCount kl.2
  match byteDrop ws kl.2 with
  | none => none
  | some rest =>
    if rest.isEmpty then some s
    else
      match closeStackI (asI32 ws) s with
      | none => none
      | some s2 => some ((ITree.mk (kl.1, rest) [], asI32 ws) :: s2)

/-- Instrumented line loop: processes `lines`, numbering them from `n`. -/
def iparseLines (n : Nat) (s : List (ITree × Int)) : List (List Char) → Option (List (ITree × Int))
  | [] => some s
  | line :: rest =>
    match processLineI s (n, line) with
    | none => none
    | some s2 => iparseLines (n + 1) s2 rest

/-- Instrumented end-of-input flush. -/
def flushGoI (top : ITree × Int) : List (ITree × Int) → ITree × Int
  | [] => top
  | (p, pl) :: r => flushGoI (appendChildI p top.1, pl) r

/-- Instrumented `Tree::from_file`: lines are numbered from 1, the sentinel
root carries line number 0. -/
def iparse (lines : List (List Char)) : Option ITree :=
  match iparseLines 1 [(ITree.mk (0, []) [], -1)] lines with
  | some (x :: rest) => some (flushGoI x rest).1
  | some [] => none
  | none => none

mutual

/-- Forget the line numbers of an instrumented tree. -/
def eraseT : ITree → Tree
  | ITree.mk k cs => Tree.mk k.2 (eraseL cs)

/-- Forget the line numbers of a list of instrumented trees. -/
def eraseL : List ITree → List Tree
  | [] => []
  | c :: cs => eraseT c :: eraseL cs

end

/-- Forget the line numbers of an instrumented stack entry. -/
def eraseE (e : ITree × Int) : Tree × Int :=
  (eraseT e.1, e.2)

/-- Forget the line numbers of an instrumented stack. -/
def eraseStack (s : List (ITree × Int)) : List (Tree × Int) :=
  s.map eraseE

/-- Subtree occurrence: `OccursT u t` holds when `u` is `t` itself or occurs
(at any depth) in the children of `t`. -/
inductive OccursT : ITree → ITree → Prop
  | refl (t : ITree) : OccursT t t
  | child {u c t : ITree} : OccursT u c → c ∈ t.children → OccursT u t

/-- Line number `i` appears nowhere in `t`. -/
def AbsentIdx (i : Nat) (t : ITree) : Prop :=
  ∀ u, OccursT u t → u.key.fst ≠ i

/-- Line number `i` appears nowhere in the stack `s`. -/
def AbsentStack (i : Nat) (s : List (ITree × Int)) : Prop :=
  ∀ e ∈ s, AbsentIdx i e.1

/-- The node of line `i` is closed for good: it is not the root of any stack
entry, and wherever it occurs inside a stack entry it has no children. -/
def FrozenLeaf (i : Nat) (t : ITree) : Prop :=
  t.key.fst ≠ i ∧ ∀ u, OccursT u t → u.key.fst = i → u.children = []

/-- Every entry of the stack satisfies FrozenLeaf. -/
def FrozenStack (i : Nat) (s : List (ITree × Int)) : Prop :=
  ∀ e ∈ s, FrozenLeaf i e.1

/-- The indentation level stored in the bottom (sentinel) entry of a stack. -/
def bottomLevel {α : Type} : List (α × Int) → Option Int
  | [] => none
  | [(_, l)] => some l
  | _ :: xs => bottomLevel xs

/-- Levels of a parser stack listed from the top: strictly decreasing. -/
def LevelsSorted : List Int → Prop
  | [] => True
  | [_] => True
  | a :: b :: r => b < a ∧ LevelsSorted (b :: r)

theorem pickGo_leaf {t : Tree} (cs : List (Option Nat)) (h : t.children = []) :
    pickGo cs t = (PickOutcome.completed t.key, 0) := by
  cases cs with
  | nil => simp [pickGo, h]
  | cons c cs =>
    cases c with
    | none => simp [pickGo, h]
    | some i => simp [pickGo, h]

theorem pickGo_blocked {t : Tree} (h : t.children ≠ []) :
    pickGo [] t = (PickOutcome.blocked, 1) := by
  cases ht : t.children with
  | nil => exact absurd ht h
  | cons a l => simp [pickGo, ht]

theorem pickGo_cancel {t : Tree} (cs : List (Option Nat)) (h : t.children ≠ []) :
    pickGo (none :: cs) t = (PickOutcome.cancelPanic, 1) := by
  cases ht : t.children with
  | nil => exact absurd ht h
  | cons a l => simp [pickGo, ht]

theorem pickGo_oob {t : Tree} (cs : List (Option Nat)) (i : Nat)
    (h : t.children ≠ []) (hg : t.children[i]? = none) :
    pickGo (some i :: cs) t = (PickOutcome.indexPanic, 1) := by
  cases ht : t.children with
  | nil => exact absurd ht h
  | cons a l =>
    rw [ht] at hg
    simp [pickGo, ht, hg]

theorem pickGo_step {t c : Tree} (cs : List (Option Nat)) (i : Nat)
    (h : t.children ≠ []) (hg : t.children[i]? = some c) :
    pickGo (some i :: cs) t = ((pickGo cs c).1, (pickGo cs c).2 + 1) := by
  cases ht : t.children with
  | nil => exact absurd ht h
  | cons a l =>
    rw [ht] at hg
    simp [pickGo, ht, hg]

theorem pick_leaf {t : Tree} (cs : List (Option Nat)) (h : t.children = []) :
    pick t cs = (PickOutcome.emptyTree, 0) := by
  simp [pick, h]

theorem pick_eq_pickGo {t : Tree} (cs : List (Option Nat)) (h : t.children ≠ []) :
    pick t cs = pickGo cs t := by
  cases ht : t.children with
  | nil => exact absurd ht h
  | cons a l => simp [pick, ht]

theorem pickGo_follow (is : List Nat) :
    ∀ t n : Tree, follow t is = some n → n.children = [] →
      pickGo (is.map Option.some) t = (PickOutcome.completed n.key, is.length) := by
  induction is with
  | nil =>
    intro t n hf hn
    simp [follow] at hf
    subst hf
    exact pickGo_leaf _ hn
  | cons i is ih =>
    intro t n hf hn
    simp only [follow] at hf
    cases hg : t.children[i]? with
    | none => rw [hg] at hf; simp at hf
    | some c =>
      rw [hg] at hf
      have hne : t.children ≠ [] := by
        intro hnil
        rw [hnil] at hg
        simp at hg
      rw [List.map_cons, pickGo_step (is.map Option.some) i hne hg, ih c n hf hn]
      rfl

/-- C3: a tree whose root has no children makes `pick` take the guard branch:
the informational-message outcome `emptyTree` is returned at once and zero
prompts are issued, whatever responses the collaborator would have given. -/
theorem empty_tree_no_prompt (t : Tree) (cs : List (Option Nat))
    (h : t.children = []) :
    pick t cs = (PickOutcome.emptyTree, 0) :=
  pick_leaf cs h

theorem empty_tree_no_prompt_inst :
    pick (Tree.mk [] []) [Option.some 0, Option.none] = (PickOutcome.emptyTree, 0) :=
  empty_tree_no_prompt (Tree.mk [] []) [Option.some 0, Option.none] rfl

/-- C4: on a tree with a non-empty root, any index sequence that `follow`s to
a node with no children drives `pick`'s loop to that node: the run ends in
`completed` carrying that leaf node's label, with one prompt per level. -/
theorem descent_reaches_leaf (t : Tree) (is : List Nat) (n : Tree)
    (hroot : t.children ≠ []) (hf : follow t is = some n) (hn : n.children = []) :
    pick t (is.map Option.some) = (PickOutcome.completed n.key, is.length) := by
  rw [pick_eq_pickGo _ hroot]
  exact pickGo_follow is t n hf hn

theorem descent_reaches_leaf_inst :
    pick exTree [Option.some 1, Option.some 0] = (PickOutcome.completed ['c'], 2) :=
  descent_reaches_leaf exTree [1, 0] (Tree.mk ['c'] [])
    (by simp [exTree, Tree.children]) rfl rfl

/-- C2 counterexample: on a non-empty tree, cancelling the first prompt does
not end the pass cleanly: `pick` hits the `unwrap()` of the prompt error and
the run ends in the fatal `cancelPanic` outcome, not a clean `Cancelled`
result. -/
theorem cancel_panics_at_prompt :
    (pick exTree [Option.none]).1 = PickOutcome.cancelPanic
    ∧ isCleanOutcome (pick exTree [Option.none]).1 = false := by
  exact ⟨rfl, rfl⟩

/-- C2 (amended): whenever the current node still has children and the next
response is a cancellation, the pass ends immediately with exactly that one
prompt issued and no further prompts, independent of the rest of the response
stream — but it ends in the `cancelPanic` outcome (the `unwrap()` of the
prompt error panics), not in a clean `Cancelled` outcome. -/
theorem cancel_stops_prompts :
    (∀ (t : Tree) (cs : List (Option Nat)), t.children ≠ [] →
        pickGo (Option.none :: cs) t = (PickOutcome.cancelPanic, 1))
    ∧ (∀ (t : Tree) (cs : List (Option Nat)), t.children ≠ [] →
        pick t (Option.none :: cs) = (PickOutcome.cancelPanic, 1)) := by
  refine ⟨fun t cs h => pickGo_cancel cs h, fun t cs h => ?_⟩
  rw [pick_eq_pickGo _ h]
  exact pickGo_cancel cs h

theorem cancel_stops_prompts_inst :
    pick exTree [Option.none, Option.some 0] = (PickOutcome.cancelPanic, 1) :=
  cancel_stops_prompts.2 exTree [Option.some 0] (by simp [exTree, Tree.children])

theorem validChoices_no_panic (cs : List (Option Nat)) :
    ∀ t : Tree, validChoices cs t = true → (pickGo cs t).1 ≠ PickOutcome.indexPanic := by
  induction cs with
  | nil =>
    intro t hv
    cases ht : t.children with
    | nil => rw [pickGo_leaf _ ht]; simp
    | cons a l => rw [pickGo_blocked (by simp [ht])]; simp
  | cons c cs ih =>
    intro t hv
    cases ht : t.children with
    | nil => rw [pickGo_leaf _ ht]; simp
    | cons a l =>
      have hne : t.children ≠ [] := by simp [ht]
      cases c with
      | none => rw [pickGo_cancel cs hne]; simp
      | some i =>
        cases hg : t.children[i]? with
        | none =>
          exfalso
          rw [ht] at hg
          simp only [validChoices, ht, hg] at hv
          simp at hv
        | some ch =>
          have hg2 : t.children[i]? = some ch := hg
          rw [ht] at hg
          have hv2 : validChoices cs ch = true := by
            simpa only [validChoices, ht, hg] using hv
          rw [pickGo_step cs i hne hg2]
          exact ih ch hv2

/-- C7: under the spec's precondition on the choice collaborator — every
returned index is within `[0, children.len())` for the option list it was
given — the child access `t.children[i]` is in bounds at every iteration: the
out-of-range outcome `indexPanic` is unreachable, both for a whole pass and
from any intermediate loop state. -/
theorem child_access_in_bounds (t : Tree) (cs : List (Option Nat))
    (hv : validChoices cs t = true) :
    (pick t cs).1 ≠ PickOutcome.indexPanic
    ∧ (pickGo cs t).1 ≠ PickOutcome.indexPanic := by
  refine ⟨?_, validChoices_no_panic cs t hv⟩
  cases ht : t.children with
  | nil => rw [pick_leaf cs ht]; simp
  | cons a l =>
    rw [pick_eq_pickGo cs (by simp [ht])]
    exact validChoices_no_panic cs t hv

theorem child_access_in_bounds_inst :
    validChoices [Option.some 1, Option.some 0] exTree = true
    ∧ (pick exTree [Option.some 1, Option.some 0]).1 ≠ PickOutcome.indexPanic :=
  ⟨rfl, (child_access_in_bounds exTree [Option.some 1, Option.some 0] rfl).1⟩

/-- C10 (code bug): `from_file` computes `ws` as a count of chars but slices
the line at byte offset `ws`.  On the line U+00A0 `x` the leading whitespace
is one char (U+00A0 is Unicode whitespace) but its UTF-8 encoding is two
bytes, so byte offset 1 is not a char boundary and `&line[ws..]` panics. -/
theorem nbsp_slice_misaligned :
    rustIsWhitespace (Char.ofNat 0xA0) = true
    ∧ wsCount nbspLine = 1
    ∧ utf8Size (Char.ofNat 0xA0) = 2
    ∧ isUtf8Boundary nbspLine (wsCount nbspLine) = false := by
  exact ⟨by decide, by decide, by decide, by decide⟩

/-- C9: navigation is deterministic.  First conjunct: two runs of the loop
from the same tree and the same fixed response stream end in the same outcome
and visit the same root-to-leaf path.  Second conjunct: every run of the
implementation `pickGo` is one such `NavGo` run, so the function's outcome is
the one the relation determines. -/
theorem navigation_deterministic :
    (∀ (cs : List (Option Nat)) (t : Tree) (o1 o2 : PickOutcome)
        (p1 p2 : List (List Char)),
        NavGo cs t o1 p1 → NavGo cs t o2 p2 → o1 = o2 ∧ p1 = p2)
    ∧ (∀ (cs : List (Option Nat)) (t : Tree), ∃ p, NavGo cs t (pickGo cs t).1 p) := by
  constructor
  · intro cs t o1 o2 p1 p2 h1
    induction h1 generalizing o2 p2 with
    | leaf cs t h =>
      intro h2
      cases h2 with
      | leaf => exact ⟨rfl, rfl⟩
      | blocked => rename_i hc; exact absurd h hc
      | cancel _ _ hc => exact absurd h hc
      | oob _ _ _ hc _ => exact absurd h hc
      | step _ _ _ _ _ _ hc _ _ => exact absurd h hc
    | blocked t h =>
      intro h2
      cases h2 with
      | leaf _ _ hc => exact absurd hc h
      | blocked => exact ⟨rfl, rfl⟩
    | cancel cs t h =>
      intro h2
      cases h2 with
      | leaf _ _ hc => exact absurd hc h
      | cancel => exact ⟨rfl, rfl⟩
    | oob cs t i h hg =>
      intro h2
      cases h2 with
      | leaf _ _ hc => exact absurd hc h
      | oob => exact ⟨rfl, rfl⟩
      | step _ _ _ _ _ _ _ hg2 _ => rw [hg] at hg2; exact absurd hg2 (by simp)
    | step cs t c i o p h hg hnav ih =>
      intro h2
      cases h2 with
      | leaf _ _ hc => exact absurd hc h
      | oob _ _ _ _ hg2 => rw [hg] at hg2; exact absurd hg2 (by simp)
      | step _ _ c2 _ o2x p2x _ hg2 hnav2 =>
        rw [hg] at hg2
        have hc2 : c = c2 := by injection hg2
        subst hc2
        obtain ⟨ho, hp⟩ := ih _ _ hnav2
        exact ⟨ho, by rw [hp]⟩
  · intro cs
    induction cs with
    | nil =>
      intro t
      cases ht : t.children with
      | nil =>
        refine ⟨[t.key], ?_⟩
        rw [pickGo_leaf [] ht]
        exact NavGo.leaf [] t ht
      | cons a l =>
        have hne : t.children ≠ [] := by simp [ht]
        refine ⟨[t.key], ?_⟩
        rw [pickGo_blocked hne]
        exact NavGo.blocked t hne
    | cons c cs ih =>
      intro t
      cases ht : t.children with
      | nil =>
        refine ⟨[t.key], ?_⟩
        rw [pickGo_leaf (c :: cs) ht]
        exact NavGo.leaf (c :: cs) t ht
      | cons a l =>
        have hne : t.children ≠ [] := by simp [ht]
        cases c with
        | none =>
          refine ⟨[t.key], ?_⟩
          rw [pickGo_cancel cs hne]
          exact NavGo.cancel cs t hne
        | some i =>
          cases hg : t.children[i]? with
          | none =>
            refine ⟨[t.key], ?_⟩
            rw [pickGo_oob cs i hne hg]
            exact NavGo.oob cs t i hne hg
          | some ch =>
            obtain ⟨p, hp⟩ := ih ch
            refine ⟨t.key :: p, ?_⟩
            rw [pickGo_step cs i hne hg]
            exact NavGo.step cs t ch i (pickGo cs ch).1 p hne hg hp

theorem navigation_deterministic_inst :
    PickOutcome.completed (['a'] : List Char) = PickOutcome.completed ['a']
    ∧ ([(['a'] : List Char)] : List (List Char)) = [['a']] :=
  navigation_deterministic.1 [] (Tree.mk ['a'] []) (PickOutcome.completed ['a'])
    (PickOutcome.completed ['a']) [['a']] [['a']]
    (NavGo.leaf [] (Tree.mk ['a'] []) rfl) (NavGo.leaf [] (Tree.mk ['a'] []) rfl)

theorem takeWhile_all (p : Char → Bool) :
    ∀ l : List Char, (l.takeWhile p).all p = true := by
  intro l
  induction l with
  | nil => rfl
  | cons a l ih =>
    by_cases h : p a = true
    · simp [List.takeWhile, h, ih]
    · simp [List.takeWhile, Bool.eq_false_iff.mpr h]

theorem take_takeWhile_length (p : Char → Bool) :
    ∀ l : List Char, l.take ((l.takeWhile p).length) = l.takeWhile p := by
  intro l
  induction l with
  | nil => rfl
  | cons a l ih =>
    by_cases h : p a = true
    · simp [List.takeWhile, h, ih]
    · simp [List.takeWhile, Bool.eq_false_iff.mpr h]

theorem take_all_le_takeWhile_length (p : Char → Bool) :
    ∀ (l : List Char) (k : Nat), k ≤ l.length → (l.take k).all p = true →
      k ≤ (l.takeWhile p).length := by
  intro l
  induction l with
  | nil => intro k hk _; simpa using hk
  | cons a l ih =>
    intro k hk hall
    cases k with
    | zero => exact Nat.zero_le _
    | succ k =>
      rw [List.take_succ_cons, List.all_cons, Bool.and_eq_true] at hall
      rw [List.takeWhile, hall.1, List.length_cons]
      exact Nat.succ_le_succ (ih k (Nat.le_of_succ_le_succ hk) hall.2)

theorem bottomLevel_head_irrel {α : Type} (a b : α) (l : Int) (r : List (α × Int)) :
    bottomLevel ((a, l) :: r) = bottomLevel ((b, l) :: r) := by
  cases r <;> rfl

theorem bottomLevel_cons_ne_nil {α : Type} (x : α × Int) {r : List (α × Int)}
    (h : r ≠ []) : bottomLevel (x :: r) = bottomLevel r := by
  cases r with
  | nil => exact absurd rfl h
  | cons y ys => rfl

theorem flushGo_level :
    ∀ (rest : List (Tree × Int)) (top : Tree × Int) (l : Int),
      bottomLevel (top :: rest) = some l → (flushGo top rest).2 = l := by
  intro rest
  induction rest with
  | nil =>
    intro top l h
    simp only [bottomLevel] at h
    rw [flushGo]
    exact (Option.some_inj.mp h)
  | cons y r ih =>
    intro top l h
    obtain ⟨p, pl⟩ := y
    rw [flushGo]
    refine ih (appendChild p top.1, pl) l ?_
    rw [bottomLevel_head_irrel (appendChild p top.1) p pl r]
    exact h

theorem eraseL_append : ∀ xs ys : List ITree,
    eraseL (xs ++ ys) = eraseL xs ++ eraseL ys := by
  intro xs ys
  induction xs with
  | nil => simp [eraseL]
  | cons c cs ih => simp [eraseL, ih]

theorem erase_appendChild (p c : ITree) :
    eraseT (appendChildI p c) = appendChild (eraseT p) (eraseT c) := by
  cases p with
  | mk k cs =>
    simp [appendChildI, appendChild, eraseT, ITree.key, ITree.children,
      Tree.key, Tree.children, eraseL_append, eraseL]

theorem erase_flushGo :
    ∀ (rest : List (ITree × Int)) (top : ITree × Int),
      eraseE (flushGoI top rest) = flushGo (eraseE top) (eraseStack rest) := by
  intro rest
  induction rest with
  | nil => intro top; rfl
  | cons y r ih =>
    intro top
    obtain ⟨p, pl⟩ := y
    rw [flushGoI, ih (appendChildI p top.1, pl)]
    have : eraseStack ((p, pl) :: r) = (eraseT p, pl) :: eraseStack r := rfl
    rw [this, flushGo]
    simp [eraseE, erase_appendChild]

theorem levelsSorted_lt_head :
    ∀ (ls : List Int) (a : Int), LevelsSorted (a :: ls) → ∀ x ∈ ls, x < a := by
  intro ls
  induction ls with
  | nil => intro a _ x hx; simp at hx
  | cons b r ih =>
    intro a h x hx
    have hba : b < a := h.1
    rcases List.mem_cons.mp hx with rfl | hxr
    · exact hba
    · exact lt_trans (ih b h.2 x hxr) hba

theorem occursT_elim {u t : ITree} (h : OccursT u t) :
    u = t ∨ ∃ c ∈ t.children, OccursT u c := by
  cases h with
  | refl => exact Or.inl rfl
  | child hc hm => exact Or.inr ⟨_, hm, hc⟩

theorem occursT_leaf {u : ITree} {k : Nat × List Char}
    (h : OccursT u (ITree.mk k [])) : u = ITree.mk k [] := by
  rcases occursT_elim h with rfl | ⟨c, hc, _⟩
  · rfl
  · simp [ITree.children] at hc

theorem occurs_appendChildI {v : ITree} (p c : ITree)
    (h : OccursT v (appendChildI p c)) :
    v = appendChildI p c ∨ OccursT v p ∨ OccursT v c := by
  rcases occursT_elim h with rfl | ⟨d, hd, hvd⟩
  · exact Or.inl rfl
  · have hd2 : d ∈ p.children ++ [c] := by
      simpa [appendChildI, ITree.children] using hd
    rcases List.mem_append.mp hd2 with hdp | hdc
    · exact Or.inr (Or.inl (OccursT.child hvd hdp))
    · rcases List.mem_singleton.mp hdc with rfl
      exact Or.inr (Or.inr hvd)

theorem appendChildI_key (p c : ITree) : (appendChildI p c).key = p.key := rfl

theorem absent_to_frozen {i : Nat} {t : ITree} (h : AbsentIdx i t) : FrozenLeaf i t :=
  ⟨h t (OccursT.refl t), fun u hu hi => absurd hi (h u hu)⟩

theorem frozenLeaf_append {i : Nat} {p c : ITree}
    (hp : FrozenLeaf i p) (hc : FrozenLeaf i c) : FrozenLeaf i (appendChildI p c) := by
  refine ⟨by rw [appendChildI_key]; exact hp.1, fun u hu hi => ?_⟩
  rcases occurs_appendChildI p c hu with rfl | hup | huc
  · exact absurd hi (by rw [appendChildI_key]; exact hp.1)
  · exact hp.2 u hup hi
  · exact hc.2 u huc hi

theorem absentIdx_append {i : Nat} {p c : ITree}
    (hp : AbsentIdx i p) (hc : AbsentIdx i c) : AbsentIdx i (appendChildI p c) := by
  intro u hu
  rcases occurs_appendChildI p c hu with rfl | hup | huc
  · rw [appendChildI_key]; exact hp p (OccursT.refl p)
  · exact hp u hup
  · exact hc u huc

theorem frozenLeaf_append_leafI {i : Nat} {p : ITree} (x : List Char)
    (hp : AbsentIdx i p) : FrozenLeaf i (appendChildI p (ITree.mk (i, x) [])) := by
  refine ⟨by rw [appendChildI_key]; exact hp p (OccursT.refl p), fun u hu hi => ?_⟩
  rcases occurs_appendChildI p (ITree.mk (i, x) []) hu with rfl | hup | huc
  · exact absurd hi (by rw [appendChildI_key]; exact hp p (OccursT.refl p))
  · exact absurd hi (hp u hup)
  · rw [occursT_leaf huc]; rfl

theorem frozenLeaf_newNode {i k : Nat} (x : List Char) (hk : k ≠ i) :
    FrozenLeaf i (ITree.mk (k, x) []) := by
  refine ⟨by simpa [ITree.key] using hk, fun u hu _ => ?_⟩
  rw [occursT_leaf hu]; rfl

theorem absentIdx_newNode {i k : Nat} (x : List Char) (hk : k ≠ i) :
    AbsentIdx i (ITree.mk (k, x) []) := by
  intro u hu
  rw [occursT_leaf hu]
  simpa [ITree.key] using hk

theorem frozenStack_cons {i : Nat} {x : ITree × Int} {r : List (ITree × Int)}
    (hx : FrozenLeaf i x.1) (hr : FrozenStack i r) : FrozenStack i (x :: r) := by
  intro e he
  rcases List.mem_cons.mp he with rfl | her
  · exact hx
  · exact hr e her

theorem absentStack_cons {i : Nat} {x : ITree × Int} {r : List (ITree × Int)}
    (hx : AbsentIdx i x.1) (hr : AbsentStack i r) : AbsentStack i (x :: r) := by
  intro e he
  rcases List.mem_cons.mp he with rfl | her
  · exact hx
  · exact hr e her

theorem frozen_flushGoI {i : Nat} :
    ∀ (rest : List (ITree × Int)) (top : ITree × Int),
      FrozenStack i (top :: rest) → FrozenLeaf i (flushGoI top rest).1 := by
  intro rest
  induction rest with
  | nil => intro top h; exact h top (by simp)
  | cons y r ih =>
    intro top h
    obtain ⟨p, pl⟩ := y
    rw [flushGoI]
    refine ih (appendChildI p top.1, pl) (frozenStack_cons ?_ ?_)
    · exact frozenLeaf_append (h (p, pl) (by simp)) (h top (by simp))
    · intro e he
      exact h e (by simp [he])


theorem utf8Size_pos (c : Char) : 1 ≤ utf8Size c := by
  unfold utf8Size
  split
  · omega
  split
  · omega
  split
  · omega
  · omega

theorem utf8Len_cons (c : Char) (l : List Char) :
    utf8Len (c :: l) = utf8Size c + utf8Len l := by
  simp [utf8Len]

theorem asI32_of_lt (n : Nat) (h : n < 2 ^ 31) : asI32 n = (n : Int) := by
  unfold asI32
  have h0 : n < 2147483648 := by omega
  have h1 : (0 : Int) ≤ (n : Int) + 2147483648 := by omega
  have h2 : (n : Int) + 2147483648 < 4294967296 := by omega
  rw [Int.emod_eq_of_lt h1 h2]
  omega

theorem wsCount_cons_ws {c : Char} (l : List Char) (h : rustIsWhitespace c = true) :
    wsCount (c :: l) = wsCount l + 1 := by
  simp [wsCount, List.takeWhile_cons, h]

theorem wsCount_wideLine (n : Nat) : wsCount (wideLine n) = n := by
  induction n with
  | zero => decide
  | succ n ih =>
    have hw : wideLine (n + 1) = ' ' :: wideLine n := by
      simp [wideLine, List.replicate_succ]
    rw [hw, wsCount_cons_ws _ (by decide), ih]

theorem byteDrop_space (n : Nat) (l : List Char) :
    byteDrop n (List.replicate n ' ' ++ l) = some l := by
  induction n with
  | zero => simp [byteDrop]
  | succ n ih =>
    rw [List.replicate_succ, List.cons_append, byteDrop,
      if_pos (show utf8Size ' ' ≤ n + 1 by
        have : utf8Size ' ' = 1 := by decide
        omega)]
    have hs : utf8Size ' ' = 1 := by decide
    rw [hs, Nat.add_sub_cancel]
    exact ih

theorem processLine_wideLine (n : Nat) (s : List (Tree × Int)) :
    processLine s (wideLine n)
      = match closeStack (asI32 n) s with
        | none => none
        | some s2 => some ((Tree.mk ['a'] [], asI32 n) :: s2) := by
  have h2 : byteDrop n (wideLine n) = some ['a'] := by
    rw [wideLine]
    exact byteDrop_space n ['a']
  simp only [processLine, wsCount_wideLine, h2, List.isEmpty_cons, if_false,
    Bool.false_eq_true]

theorem byteDrop_suffix :
    ∀ (l : List Char) (b : Nat) (rest : List Char), byteDrop b l = some rest →
      ∃ k, l.drop k = rest ∧ utf8Len (l.take k) = b := by
  intro l
  induction l with
  | nil =>
    intro b rest h
    cases b with
    | zero =>
      refine ⟨0, ?_, rfl⟩
      simpa [byteDrop] using h
    | succ b => simp [byteDrop] at h
  | cons c tl ih =>
    intro b rest h
    cases b with
    | zero =>
      refine ⟨0, ?_, rfl⟩
      simpa [byteDrop] using h
    | succ b =>
      rw [byteDrop] at h
      by_cases hsz : utf8Size c ≤ b + 1
      · rw [if_pos hsz] at h
        obtain ⟨k, hk1, hk2⟩ := ih (b + 1 - utf8Size c) rest h
        refine ⟨k + 1, by simpa using hk1, ?_⟩
        rw [List.take_succ_cons, utf8Len_cons, hk2]
        omega
      · rw [if_neg hsz] at h
        simp at h

theorem utf8Len_ge_length : ∀ l : List Char, l.length ≤ utf8Len l := by
  intro l
  induction l with
  | nil => simp [utf8Len]
  | cons c tl ih =>
    rw [List.length_cons, utf8Len_cons]
    have := utf8Size_pos c
    omega

theorem takeWhile_length_le (p : Char → Bool) :
    ∀ l : List Char, (l.takeWhile p).length ≤ l.length := by
  intro l
  induction l with
  | nil => simp
  | cons a tl ih =>
    rw [List.takeWhile_cons]
    by_cases hp : p a = true
    · rw [if_pos hp]
      simpa using ih
    · rw [if_neg (by simp [hp])]
      simp

theorem takeWhile_length_eq_all (p : Char → Bool) :
    ∀ l : List Char, (l.takeWhile p).length = l.length → l.all p = true := by
  intro l
  induction l with
  | nil => intro _; rfl
  | cons a tl ih =>
    intro h
    by_cases hp : p a = true
    · rw [List.takeWhile_cons, if_pos hp] at h
      simp only [List.length_cons, Nat.add_right_cancel_iff] at h
      simp [hp, ih h]
    · rw [List.takeWhile_cons, if_neg (by simp [hp])] at h
      simp at h

theorem isBlank_all_ws (line : List Char) (h : isBlank line = true) :
    line.all rustIsWhitespace = true := by
  cases hbd : byteDrop (wsCount line) line with
  | none => simp [isBlank, hbd] at h
  | some rest =>
    have hre : rest = [] := by
      simp only [isBlank, hbd] at h
      simpa using h
    subst hre
    obtain ⟨k, hk1, hk2⟩ := byteDrop_suffix line (wsCount line) [] hbd
    have hlen : line.length ≤ k := List.drop_eq_nil_iff.mp hk1
    have htake : line.take k = line := List.take_of_length_le hlen
    rw [htake] at hk2
    have h1 : line.length ≤ utf8Len line := utf8Len_ge_length line
    have h2 : (line.takeWhile rustIsWhitespace).length ≤ line.length :=
      takeWhile_length_le rustIsWhitespace line
    refine takeWhile_length_eq_all rustIsWhitespace line ?_
    rw [wsCount] at hk2
    omega

theorem processLine_blank {line : List Char} (s : List (Tree × Int))
    (h : isBlank line = true) : processLine s line = some s := by
  cases hbd : byteDrop (wsCount line) line with
  | none => simp [isBlank, hbd] at h
  | some rest =>
    have hre : rest.isEmpty = true := by
      simp only [isBlank, hbd] at h
      exact h
    simp [processLine, hbd, hre]

theorem processLineI_blank {line : List Char} (s : List (ITree × Int)) (k : Nat)
    (h : isBlank line = true) : processLineI s (k, line) = some s := by
  cases hbd : byteDrop (wsCount line) line with
  | none => simp [isBlank, hbd] at h
  | some rest =>
    have hre : rest.isEmpty = true := by
      simp only [isBlank, hbd] at h
      exact h
    simp [processLineI, hbd, hre]

theorem parseLines_filter_blank :
    ∀ (ls : List (List Char)) (s : List (Tree × Int)),
      parseLines s ls = parseLines s (ls.filter (fun l => !isBlank l)) := by
  intro ls
  induction ls with
  | nil => intro s; rfl
  | cons l ls ih =>
    intro s
    by_cases hb : isBlank l = true
    · rw [List.filter_cons, if_neg (by simp [hb])]
      rw [parseLines, processLine_blank s hb]
      exact ih s
    · rw [List.filter_cons, if_pos (by simp [Bool.eq_false_iff.mpr hb])]
      rw [parseLines, parseLines]
      cases hp : processLine s l with
      | none => rfl
      | some s2 => exact ih s2

/-- C8 counterexample: on a line with `2 ^ 32` leading spaces, `ws as i32`
wraps to 0, so the node is pushed at level 0 although the raw count of
leading whitespace characters is `2 ^ 32`: the stored level is not the raw
count. -/
theorem wrap_breaks_level_count :
    wsCount (wideLine (2 ^ 32)) = 2 ^ 32
    ∧ parseLines [(Tree.mk [] [], -1)] [wideLine (2 ^ 32)]
        = some [(Tree.mk ['a'] [], 0), (Tree.mk [] [], -1)]
    ∧ ((0 : Int) ≠ ((2 ^ 32 : Nat) : Int)) := by
  refine ⟨wsCount_wideLine _, ?_, by decide⟩
  have h := processLine_wideLine (2 ^ 32) [(Tree.mk [] [], -1)]
  have ha : asI32 (2 ^ 32) = 0 := by decide
  rw [ha] at h
  have h1 : processLine [(Tree.mk [] [], -1)] (wideLine (2 ^ 32))
      = some [(Tree.mk ['a'] [], 0), (Tree.mk [] [], -1)] := by
    rw [h]
    rfl
  rw [parseLines, h1]
  rfl

/-- C8 (amended): `wsCount` is the raw count of leading whitespace characters
(its prefix is all-whitespace and maximal, tab and space each counting as one
character), and whenever the byte slice at that count is valid with a
non-empty remainder and the closing loop succeeds, the node is pushed with
that remainder as label at level `ws as i32` — which equals the raw count
exactly when the count is below `2 ^ 31` (no i32 wrap). -/
theorem indent_is_leading_ws_count (line : List Char) (s : List (Tree × Int)) :
    (line.take (wsCount line)).all rustIsWhitespace = true
    ∧ (∀ k, k ≤ line.length → (line.take k).all rustIsWhitespace = true →
        k ≤ wsCount line)
    ∧ (∀ n : Nat, n < 2 ^ 31 → asI32 n = (n : Int))
    ∧ (∀ (rest : List Char) (out : List (Tree × Int)),
        byteDrop (wsCount line) line = some rest → rest.isEmpty = false →
        closeStack (asI32 (wsCount line)) s = some out →
        processLine s line = some ((Tree.mk rest [], asI32 (wsCount line)) :: out))
    ∧ rustIsWhitespace '\t' = true ∧ rustIsWhitespace ' ' = true := by
  refine ⟨?_, ?_, asI32_of_lt, ?_, by decide, by decide⟩
  · rw [wsCount, take_takeWhile_length]
    exact takeWhile_all rustIsWhitespace line
  · intro k hk hall
    exact take_all_le_takeWhile_length rustIsWhitespace line k hk hall
  · intro rest out hbd hre hcs
    simp [processLine, hbd, hre, hcs]

theorem indent_is_leading_ws_count_inst :
    (([' ', 'a'].take (wsCount [' ', 'a'])).all rustIsWhitespace = true)
    ∧ 1 ≤ wsCount [' ', 'a']
    ∧ asI32 1 = (1 : Int)
    ∧ processLine [(Tree.mk [] [], -1)] [' ', 'a']
        = some [(Tree.mk ['a'] [], 1), (Tree.mk [] [], -1)] :=
  ⟨(indent_is_leading_ws_count [' ', 'a'] []).1,
   (indent_is_leading_ws_count [' ', 'a'] []).2.1 1 (by decide) (by decide),
   (indent_is_leading_ws_count [' ', 'a'] []).2.2.1 1 (by decide),
   (indent_is_leading_ws_count [' ', 'a'] [(Tree.mk [] [], -1)]).2.2.2.1 ['a']
     [(Tree.mk [] [], -1)] rfl rfl rfl⟩

/-- C5 counterexample: the whitespace-only line U+00A0 U+00A0 (two no-break
spaces) is not skipped by the parser: `ws = 2` chars is byte offset 2, which
lands after the first two-byte char, so `line[2..]` is the non-empty string
U+00A0 and the code creates a node labelled U+00A0 under the previous line.
Inserting this blank-looking line changes the resulting tree. -/
theorem nbsp_line_changes_tree :
    ([Char.ofNat 0xA0, Char.ofNat 0xA0].all rustIsWhitespace = true)
    ∧ Tree.from_file [['a']] = some (Tree.mk [] [Tree.mk ['a'] []])
    ∧ Tree.from_file [['a'], [Char.ofNat 0xA0, Char.ofNat 0xA0]]
        = some (Tree.mk [] [Tree.mk ['a'] [Tree.mk [Char.ofNat 0xA0] []]]) :=
  ⟨by decide, rfl, rfl⟩

/-- C5 (amended): the lines the parser skips without touching the stack are
exactly those whose byte slice after the leading whitespace is valid and
empty (`isBlank`); all such lines are whitespace-only, and inserting or
removing them anywhere never changes the result of `from_file`.  (The
converse fails: a whitespace-only line with multi-byte whitespace is not
skipped — it creates a node or panics, see the counterexample.) -/
theorem blank_line_invariance :
    (∀ (s : List (Tree × Int)) (line : List Char), isBlank line = true →
        processLine s line = some s)
    ∧ (∀ line : List Char, isBlank line = true → line.all rustIsWhitespace = true)
    ∧ (∀ ls1 ls2 : List (List Char),
        ls1.filter (fun l => !isBlank l) = ls2.filter (fun l => !isBlank l) →
        Tree.from_file ls1 = Tree.from_file ls2) := by
  refine ⟨fun s line h => processLine_blank s h, isBlank_all_ws, fun ls1 ls2 h => ?_⟩
  have hp : parseStack ls1 = parseStack ls2 := by
    rw [parseStack, parseStack, parseLines_filter_blank ls1,
      parseLines_filter_blank ls2, h]
  simp only [Tree.from_file, hp]

theorem blank_line_invariance_inst :
    processLine [(Tree.mk [] [], -1)] [' ', ' '] = some [(Tree.mk [] [], -1)]
    ∧ ([' '] : List Char).all rustIsWhitespace = true
    ∧ Tree.from_file [['a'], [' ']] = Tree.from_file [[], ['a'], []] :=
  ⟨blank_line_invariance.1 [(Tree.mk [] [], -1)] [' ', ' '] (by decide),
   blank_line_invariance.2.1 [' '] (by decide),
   blank_line_invariance.2.2 [['a'], [' ']] [[], ['a'], []] (by decide)⟩

theorem closeGo_some_ne_nil (ws : Int) :
    ∀ (rest : List (Tree × Int)) (top : Tree × Int) (out : List (Tree × Int)),
      closeGo ws top rest = some out → out ≠ [] := by
  intro rest
  induction rest with
  | nil =>
    intro top out h
    rw [closeGo] at h
    by_cases hws : ws ≤ top.2
    · rw [if_pos hws] at h
      exact absurd h (by simp)
    · rw [if_neg hws] at h
      obtain rfl : [top] = out := by simpa using h
      simp
  | cons y r ih =>
    intro top out h
    obtain ⟨p, pl⟩ := y
    rw [closeGo] at h
    by_cases hws : ws ≤ top.2
    · rw [if_pos hws] at h
      exact ih (appendChild p top.1, pl) out h
    · rw [if_neg hws] at h
      obtain rfl : top :: (p, pl) :: r = out := by simpa using h
      simp

theorem closeGo_some_bottom (ws : Int) :
    ∀ (rest : List (Tree × Int)) (top : Tree × Int) (out : List (Tree × Int)),
      closeGo ws top rest = some out → bottomLevel out = bottomLevel (top :: rest) := by
  intro rest
  induction rest with
  | nil =>
    intro top out h
    rw [closeGo] at h
    by_cases hws : ws ≤ top.2
    · rw [if_pos hws] at h
      exact absurd h (by simp)
    · rw [if_neg hws] at h
      obtain rfl : [top] = out := by simpa using h
      rfl
  | cons y r ih =>
    intro top out h
    obtain ⟨p, pl⟩ := y
    rw [closeGo] at h
    by_cases hws : ws ≤ top.2
    · rw [if_pos hws] at h
      rw [ih (appendChild p top.1, pl) out h,
        bottomLevel_head_irrel (appendChild p top.1) p pl r]
      rfl
    · rw [if_neg hws] at h
      obtain rfl : top :: (p, pl) :: r = out := by simpa using h
      rfl

theorem processLine_some_bottom {s s2 : List (Tree × Int)} {l : Int}
    (line : List Char) (hb : bottomLevel s = some l)
    (h : processLine s line = some s2) : bottomLevel s2 = some l := by
  cases hbd : byteDrop (wsCount line) line with
  | none => simp [processLine, hbd] at h
  | some rest =>
    by_cases hre : rest.isEmpty = true
    · simp only [processLine, hbd, hre, if_true] at h
      obtain rfl : s = s2 := by simpa using h
      exact hb
    · rw [Bool.not_eq_true] at hre
      cases s with
      | nil => simp [bottomLevel] at hb
      | cons x r =>
        simp only [processLine, hbd, hre, if_false, Bool.false_eq_true] at h
        cases hcs : closeGo (asI32 (wsCount line)) x r with
        | none =>
          have hcs2 : closeStack (asI32 (wsCount line)) (x :: r) = none := hcs
          rw [hcs2] at h
          exact absurd h (by simp)
        | some out =>
          have hcs2 : closeStack (asI32 (wsCount line)) (x :: r) = some out := hcs
          rw [hcs2] at h
          obtain rfl : (Tree.mk rest [], asI32 (wsCount line)) :: out = s2 := by
            simpa using h
          rw [bottomLevel_cons_ne_nil _ (closeGo_some_ne_nil _ r x out hcs),
            closeGo_some_bottom _ r x out hcs]
          exact hb

theorem parseLines_bottom {l : Int} :
    ∀ (ls : List (List Char)) (s0 s : List (Tree × Int)),
      bottomLevel s0 = some l → parseLines s0 ls = some s → bottomLevel s = some l := by
  intro ls
  induction ls with
  | nil =>
    intro s0 s hb h
    obtain rfl : s0 = s := by simpa [parseLines] using h
    exact hb
  | cons line rest ih =>
    intro s0 s hb h
    rw [parseLines] at h
    cases hp : processLine s0 line with
    | none => rw [hp] at h; exact absurd h (by simp)
    | some s1 =>
      rw [hp] at h
      exact ih s1 s (processLine_some_bottom line hb hp) h

/-- C6 counterexample: a line with `2 ^ 31` leading spaces has `ws as i32`
equal to `-2 ^ 31 <= -1`, so the closing loop pops every entry including the
sentinel root and then panics on `last().unwrap()` of the emptied stack: the
root entry is popped by the per-line closing loop, and `from_file` returns
nothing. -/
theorem wrap_pops_sentinel :
    wsCount (wideLine (2 ^ 31)) = 2 ^ 31
    ∧ closeStack (asI32 (2 ^ 31)) [(Tree.mk [] [], -1)] = none
    ∧ Tree.from_file [wideLine (2 ^ 31)] = none := by
  have ha : asI32 (2 ^ 31) = -2147483648 := by decide
  refine ⟨wsCount_wideLine _, ?_, ?_⟩
  · rw [ha]
    rfl
  · have h1 : processLine [(Tree.mk [] [], -1)] (wideLine (2 ^ 31)) = none := by
      have h := processLine_wideLine (2 ^ 31) [(Tree.mk [] [], -1)]
      rw [ha] at h
      rw [h]
      rfl
    have h2 : parseStack [wideLine (2 ^ 31)] = none := by
      rw [parseStack, parseLines, h1]
    rw [Tree.from_file, h2]

/-- C6 (amended): every run of the line loop that does not panic preserves
the bottom sentinel entry at level `-1` (the closing loop pops the root only
on the panic path, where no stack survives), and whenever the line loop
returns a stack the end-of-input flush reduces it to the sentinel entry,
whose tree `from_file` returns. -/
theorem stack_sentinel_invariant :
    (∀ (lines : List (List Char)) (k : Nat) (s : List (Tree × Int)),
        parseLines [(Tree.mk [] [], -1)] (lines.take k) = some s →
        bottomLevel s = some (-1))
    ∧ (∀ (lines : List (List Char)) (s : List (Tree × Int)),
        parseLines [(Tree.mk [] [], -1)] lines = some s →
        ∃ x rest, s = x :: rest ∧ (flushGo x rest).2 = -1
          ∧ Tree.from_file lines = some (flushGo x rest).1) := by
  constructor
  · intro lines k s h
    exact parseLines_bottom (lines.take k) [(Tree.mk [] [], -1)] s rfl h
  · intro lines s h
    have hb : bottomLevel s = some (-1) := parseLines_bottom lines [(Tree.mk [] [], -1)] s rfl h
    cases s with
    | nil => simp [bottomLevel] at hb
    | cons x rest =>
      refine ⟨x, rest, rfl, flushGo_level rest x (-1) hb, ?_⟩
      simp only [Tree.from_file, parseStack, h]

theorem stack_sentinel_invariant_inst :
    bottomLevel [(Tree.mk ['a'] [], (0 : Int)), (Tree.mk [] [], -1)] = some (-1)
    ∧ ∃ x rest,
        ([(Tree.mk ['a'] [], (0 : Int)), (Tree.mk [] [], -1)]) = x :: rest
        ∧ (flushGo x rest).2 = -1
        ∧ Tree.from_file [['a']] = some (flushGo x rest).1 :=
  ⟨stack_sentinel_invariant.1 [['a']] 1 _ rfl,
   stack_sentinel_invariant.2 [['a']] _ rfl⟩

theorem erase_closeGo (ws : Int) :
    ∀ (rest : List (ITree × Int)) (top : ITree × Int),
      Option.map eraseStack (closeGoI ws top rest)
        = closeGo ws (eraseT top.1, top.2) (eraseStack rest) := by
  intro rest
  induction rest with
  | nil =>
    intro top
    have h0 : eraseStack ([] : List (ITree × Int)) = [] := rfl
    rw [h0, closeGoI, closeGo]
    by_cases hws : ws ≤ top.2
    · rw [if_pos hws, if_pos hws]
      rfl
    · rw [if_neg hws, if_neg hws]
      rfl
  | cons y r ih =>
    intro top
    obtain ⟨p, pl⟩ := y
    have hre : eraseStack ((p, pl) :: r) = (eraseT p, pl) :: eraseStack r := rfl
    rw [hre, closeGoI, closeGo]
    by_cases hws : ws ≤ top.2
    · rw [if_pos hws, if_pos hws, ih (appendChildI p top.1, pl)]
      simp [erase_appendChild]
    · rw [if_neg hws, if_neg hws]
      rfl

theorem erase_closeStack (ws : Int) (s : List (ITree × Int)) :
    Option.map eraseStack (closeStackI ws s) = closeStack ws (eraseStack s) := by
  cases s with
  | nil => rfl
  | cons x rest => exact erase_closeGo ws rest x

theorem erase_processLine (s : List (ITree × Int)) (k : Nat) (line : List Char) :
    Option.map eraseStack (processLineI s (k, line)) = processLine (eraseStack s) line := by
  cases hbd : byteDrop (wsCount line) line with
  | none => simp [processLineI, processLine, hbd]
  | some rest =>
    by_cases hre : rest.isEmpty = true
    · simp [processLineI, processLine, hbd, hre]
    · rw [Bool.not_eq_true] at hre
      simp only [processLineI, processLine, hbd, hre, if_false, Bool.false_eq_true]
      have hcs := erase_closeStack (asI32 (wsCount line)) s
      cases hcsi : closeStackI (asI32 (wsCount line)) s with
      | none =>
        rw [hcsi] at hcs
        have hnone : closeStack (asI32 (wsCount line)) (eraseStack s) = none := by
          rw [← hcs]
          rfl
        rw [hnone]
        rfl
      | some s0 =>
        rw [hcsi] at hcs
        have hsome : closeStack (asI32 (wsCount line)) (eraseStack s)
            = some (eraseStack s0) := by
          rw [← hcs]
          rfl
        rw [hsome]
        simp [eraseStack, eraseE, eraseT, eraseL]

theorem erase_iparseLines :
    ∀ (lines : List (List Char)) (n : Nat) (s : List (ITree × Int)),
      Option.map eraseStack (iparseLines n s lines) = parseLines (eraseStack s) lines := by
  intro lines
  induction lines with
  | nil => intro n s; rfl
  | cons line rest ih =>
    intro n s
    rw [iparseLines, parseLines]
    have hpl := erase_processLine s n line
    cases hpli : processLineI s (n, line) with
    | none =>
      rw [hpli] at hpl
      have hnone : processLine (eraseStack s) line = none := by
        rw [← hpl]
        rfl
      rw [hnone]
      rfl
    | some s2 =>
      rw [hpli] at hpl
      have hsome : processLine (eraseStack s) line = some (eraseStack s2) := by
        rw [← hpl]
        rfl
      rw [hsome]
      exact ih (n + 1) s2

theorem erase_iparse (lines : List (List Char)) :
    Option.map eraseT (iparse lines) = Tree.from_file lines := by
  have hinit : eraseStack [(ITree.mk (0, []) [], -1)] = [(Tree.mk [] [], -1)] := by
    simp [eraseStack, eraseE, eraseT, eraseL]
  have hst := erase_iparseLines lines 1 [(ITree.mk (0, []) [], -1)]
  rw [hinit] at hst
  rw [iparse, Tree.from_file, parseStack]
  cases hip : iparseLines 1 [(ITree.mk (0, []) [], -1)] lines with
  | none =>
    rw [hip] at hst
    have hnone : parseLines [(Tree.mk [] [], -1)] lines = none := by
      rw [← hst]
      rfl
    rw [hnone]
    rfl
  | some s =>
    rw [hip] at hst
    have hpl : parseLines [(Tree.mk [] [], -1)] lines = some (eraseStack s) := by
      rw [← hst]
      rfl
    rw [hpl]
    cases s with
    | nil => rfl
    | cons x rest =>
      have hre : eraseStack (x :: rest) = (eraseT x.1, x.2) :: eraseStack rest := rfl
      rw [hre]
      show Option.map eraseT (some (flushGoI x rest).1)
          = some (flushGo (eraseT x.1, x.2) (eraseStack rest)).1
      have hf := erase_flushGo rest x
      have hf1 : eraseT (flushGoI x rest).1
          = (flushGo (eraseT x.1, x.2) (eraseStack rest)).1 := by
        show eraseT (flushGoI x rest).1 = (flushGo (eraseE x) (eraseStack rest)).1
        rw [← hf]
        rfl
      rw [Option.map_some', hf1]

theorem closeGo_levels (ws : Int) (hws : 0 ≤ ws) :
    ∀ (rest : List (Tree × Int)) (top : Tree × Int),
      LevelsSorted ((top :: rest).map Prod.snd) →
      bottomLevel (top :: rest) = some (-1) →
      ∃ out, closeGo ws top rest = some out
        ∧ out.map Prod.snd
            = ((top :: rest).map Prod.snd).filter (fun l => decide (l < ws)) := by
  intro rest
  induction rest with
  | nil =>
    intro top _ hbot
    have ht : top.2 = -1 := by simpa [bottomLevel] using hbot
    have hneg : ¬ ws ≤ top.2 := by omega
    refine ⟨[top], ?_, ?_⟩
    · rw [closeGo, if_neg hneg]
    · rw [List.map_cons, List.map_nil, List.filter_cons,
        if_pos (by rw [ht]; exact decide_eq_true (by omega))]
      rfl
  | cons y r ih =>
    intro top hsort hbot
    obtain ⟨p, pl⟩ := y
    by_cases hle : ws ≤ top.2
    · have hsort2 : LevelsSorted (((appendChild p top.1, pl) :: r).map Prod.snd) := by
        simpa using hsort.2
      have hbot2 : bottomLevel ((appendChild p top.1, pl) :: r) = some (-1) := by
        rw [bottomLevel_head_irrel (appendChild p top.1) p pl r]
        exact hbot
      obtain ⟨out, hsome, hmap⟩ := ih (appendChild p top.1, pl) hsort2 hbot2
      refine ⟨out, ?_, ?_⟩
      · rw [closeGo, if_pos hle]
        exact hsome
      · rw [hmap]
        have hrhs : ((top :: (p, pl) :: r).map Prod.snd).filter (fun l => decide (l < ws))
            = (((p, pl) :: r).map Prod.snd).filter (fun l => decide (l < ws)) := by
          rw [List.map_cons, List.filter_cons,
            if_neg (by simp only [decide_eq_true_eq]; omega)]
        rw [hrhs]
        rfl
    · refine ⟨top :: (p, pl) :: r, ?_, ?_⟩
      · rw [closeGo, if_neg hle]
      · have hall : ∀ x ∈ ((top :: (p, pl) :: r).map Prod.snd),
            decide (x < ws) = true := by
          intro x hx
          rcases List.mem_cons.mp hx with rfl | hx2
          · exact decide_eq_true (by omega)
          · have := levelsSorted_lt_head _ _ hsort x hx2
            exact decide_eq_true (by omega)
        rw [List.filter_eq_self.mpr hall]

theorem processLine_levels (s : List (Tree × Int)) (line : List Char) (rest : List Char)
    (hsort : LevelsSorted (s.map Prod.snd))
    (hbot : bottomLevel s = some (-1))
    (hlt : wsCount line < 2 ^ 31)
    (hbd : byteDrop (wsCount line) line = some rest)
    (hne : rest.isEmpty = false) :
    (processLine s line).map (fun s2 => s2.map Prod.snd)
      = some (((wsCount line : Nat) : Int)
          :: (s.map Prod.snd).filter (fun l => decide (l < ((wsCount line : Nat) : Int)))) := by
  cases s with
  | nil => simp [bottomLevel] at hbot
  | cons x r =>
    have ha : asI32 (wsCount line) = ((wsCount line : Nat) : Int) := asI32_of_lt _ hlt
    obtain ⟨out, hsome, hmap⟩ :=
      closeGo_levels ((wsCount line : Nat) : Int) (Int.natCast_nonneg _) r x hsort hbot
    have hcs : closeStack (asI32 (wsCount line)) (x :: r) = some out := by
      rw [ha]
      exact hsome
    simp only [processLine, hbd, hne, if_false, Bool.false_eq_true, hcs]
    rw [Option.map_some']
    rw [List.map_cons, ha, hmap]

theorem frozenStack_closeGoI {i : Nat} (ws : Int) :
    ∀ (rest : List (ITree × Int)) (top : ITree × Int) (out : List (ITree × Int)),
      FrozenStack i (top :: rest) → closeGoI ws top rest = some out →
      FrozenStack i out := by
  intro rest
  induction rest with
  | nil =>
    intro top out h hsome
    rw [closeGoI] at hsome
    by_cases hws : ws ≤ top.2
    · rw [if_pos hws] at hsome
      exact absurd hsome (by simp)
    · rw [if_neg hws] at hsome
      obtain rfl : [top] = out := by simpa using hsome
      exact h
  | cons y r ih =>
    intro top out h hsome
    obtain ⟨p, pl⟩ := y
    rw [closeGoI] at hsome
    by_cases hws : ws ≤ top.2
    · rw [if_pos hws] at hsome
      refine ih (appendChildI p top.1, pl) out (frozenStack_cons ?_ ?_) hsome
      · exact frozenLeaf_append (h (p, pl) (by simp)) (h top (by simp))
      · intro e he
        exact h e (by simp [he])
    · rw [if_neg hws] at hsome
      obtain rfl : top :: (p, pl) :: r = out := by simpa using hsome
      exact h

theorem absentStack_closeGoI {i : Nat} (ws : Int) :
    ∀ (rest : List (ITree × Int)) (top : ITree × Int) (out : List (ITree × Int)),
      AbsentStack i (top :: rest) → closeGoI ws top rest = some out →
      AbsentStack i out := by
  intro rest
  induction rest with
  | nil =>
    intro top out h hsome
    rw [closeGoI] at hsome
    by_cases hws : ws ≤ top.2
    · rw [if_pos hws] at hsome
      exact absurd hsome (by simp)
    · rw [if_neg hws] at hsome
      obtain rfl : [top] = out := by simpa using hsome
      exact h
  | cons y r ih =>
    intro top out h hsome
    obtain ⟨p, pl⟩ := y
    rw [closeGoI] at hsome
    by_cases hws : ws ≤ top.2
    · rw [if_pos hws] at hsome
      refine ih (appendChildI p top.1, pl) out (absentStack_cons ?_ ?_) hsome
      · exact absentIdx_append (h (p, pl) (by simp)) (h top (by simp))
      · intro e he
        exact h e (by simp [he])
    · rw [if_neg hws] at hsome
      obtain rfl : top :: (p, pl) :: r = out := by simpa using hsome
      exact h

theorem frozenStack_closeStackI {i : Nat} (ws : Int) (s out : List (ITree × Int))
    (h : FrozenStack i s) (hsome : closeStackI ws s = some out) : FrozenStack i out := by
  cases s with
  | nil => simp [closeStackI] at hsome
  | cons x rest => exact frozenStack_closeGoI ws rest x out h hsome

theorem absentStack_closeStackI {i : Nat} (ws : Int) (s out : List (ITree × Int))
    (h : AbsentStack i s) (hsome : closeStackI ws s = some out) : AbsentStack i out := by
  cases s with
  | nil => simp [closeStackI] at hsome
  | cons x rest => exact absentStack_closeGoI ws rest x out h hsome

theorem processLineI_some_nonblank {s out : List (ITree × Int)} {k : Nat}
    {line : List Char} (hnb : isBlank line = false)
    (h : processLineI s (k, line) = some out) :
    ∃ rest s0, byteDrop (wsCount line) line = some rest ∧ rest.isEmpty = false
      ∧ closeStackI (asI32 (wsCount line)) s = some s0
      ∧ out = (ITree.mk (k, rest) [], asI32 (wsCount line)) :: s0 := by
  cases hbd : byteDrop (wsCount line) line with
  | none => simp [processLineI, hbd] at h
  | some rest =>
    have hre : rest.isEmpty = false := by
      simp only [isBlank, hbd] at hnb
      exact hnb
    simp only [processLineI, hbd, hre, if_false, Bool.false_eq_true] at h
    cases hcs : closeStackI (asI32 (wsCount line)) s with
    | none => rw [hcs] at h; exact absurd h (by simp)
    | some s0 =>
      rw [hcs] at h
      refine ⟨rest, s0, rfl, hre, rfl, ?_⟩
      exact (Option.some.inj h).symm

theorem frozenStack_processLineI {i k : Nat} {s out : List (ITree × Int)}
    (line : List Char) (hk : k ≠ i) (h : FrozenStack i s)
    (hsome : processLineI s (k, line) = some out) : FrozenStack i out := by
  cases hbd : byteDrop (wsCount line) line with
  | none => simp [processLineI, hbd] at hsome
  | some rest =>
    by_cases hre : rest.isEmpty = true
    · simp only [processLineI, hbd, hre, if_true] at hsome
      obtain rfl : s = out := by simpa using hsome
      exact h
    · rw [Bool.not_eq_true] at hre
      simp only [processLineI, hbd, hre, if_false, Bool.false_eq_true] at hsome
      cases hcs : closeStackI (asI32 (wsCount line)) s with
      | none => rw [hcs] at hsome; exact absurd hsome (by simp)
      | some s0 =>
        rw [hcs] at hsome
        obtain rfl : (ITree.mk (k, rest) [], asI32 (wsCount line)) :: s0 = out := by
          simpa using hsome
        exact frozenStack_cons (frozenLeaf_newNode _ hk)
          (frozenStack_closeStackI _ s s0 h hcs)

theorem absentStack_processLineI {i k : Nat} {s out : List (ITree × Int)}
    (line : List Char) (hk : k ≠ i) (h : AbsentStack i s)
    (hsome : processLineI s (k, line) = some out) : AbsentStack i out := by
  cases hbd : byteDrop (wsCount line) line with
  | none => simp [processLineI, hbd] at hsome
  | some rest =>
    by_cases hre : rest.isEmpty = true
    · simp only [processLineI, hbd, hre, if_true] at hsome
      obtain rfl : s = out := by simpa using hsome
      exact h
    · rw [Bool.not_eq_true] at hre
      simp only [processLineI, hbd, hre, if_false, Bool.false_eq_true] at hsome
      cases hcs : closeStackI (asI32 (wsCount line)) s with
      | none => rw [hcs] at hsome; exact absurd hsome (by simp)
      | some s0 =>
        rw [hcs] at hsome
        obtain rfl : (ITree.mk (k, rest) [], asI32 (wsCount line)) :: s0 = out := by
          simpa using hsome
        exact absentStack_cons (absentIdx_newNode _ hk)
          (absentStack_closeStackI _ s s0 h hcs)

theorem frozen_iparseLines {i : Nat} :
    ∀ (lines : List (List Char)) (n : Nat) (s out : List (ITree × Int)),
      i < n → FrozenStack i s → iparseLines n s lines = some out →
      FrozenStack i out := by
  intro lines
  induction lines with
  | nil =>
    intro n s out _ h hsome
    obtain rfl : s = out := by simpa [iparseLines] using hsome
    exact h
  | cons line rest ih =>
    intro n s out hn h hsome
    rw [iparseLines] at hsome
    cases hp : processLineI s (n, line) with
    | none => rw [hp] at hsome; exact absurd hsome (by simp)
    | some s2 =>
      rw [hp] at hsome
      exact ih (n + 1) s2 out (by omega)
        (frozenStack_processLineI line (by omega) h hp) hsome

theorem absent_iparseLines {i : Nat} :
    ∀ (lines : List (List Char)) (n : Nat) (s out : List (ITree × Int)),
      n + lines.length ≤ i ∨ i < n → AbsentStack i s →
      iparseLines n s lines = some out → AbsentStack i out := by
  intro lines
  induction lines with
  | nil =>
    intro n s out _ h hsome
    obtain rfl : s = out := by simpa [iparseLines] using hsome
    exact h
  | cons line rest ih =>
    intro n s out hn h hsome
    rw [iparseLines] at hsome
    have hkne : n ≠ i := by
      rcases hn with hn | hn
      · simp only [List.length_cons] at hn
        omega
      · omega
    cases hp : processLineI s (n, line) with
    | none => rw [hp] at hsome; exact absurd hsome (by simp)
    | some s2 =>
      rw [hp] at hsome
      refine ih (n + 1) s2 out ?_ (absentStack_processLineI line hkne h hp) hsome
      rcases hn with hn | hn
      · left
        simp only [List.length_cons] at hn
        omega
      · right
        omega

theorem iparseLines_cons (n : Nat) (s : List (ITree × Int)) (line : List Char)
    (rest : List (List Char)) :
    iparseLines n s (line :: rest)
      = match processLineI s (n, line) with
        | none => none
        | some s2 => iparseLines (n + 1) s2 rest := rfl

theorem iparseLines_append :
    ∀ (xs ys : List (List Char)) (n : Nat) (s : List (ITree × Int)),
      iparseLines n s (xs ++ ys)
        = (iparseLines n s xs).bind (fun s2 => iparseLines (n + xs.length) s2 ys) := by
  intro xs
  induction xs with
  | nil => intro ys n s; simp [iparseLines]
  | cons x xs ih =>
    intro ys n s
    rw [List.cons_append, iparseLines_cons, iparseLines_cons]
    cases hp : processLineI s (n, x) with
    | none => rfl
    | some s2 =>
      have h2 := ih ys (n + 1) s2
      rw [show n + 1 + xs.length = n + (x :: xs).length from by simp; omega] at h2
      exact h2

theorem iparseLines_blank :
    ∀ (mid : List (List Char)) (n : Nat) (s : List (ITree × Int)),
      (∀ m ∈ mid, isBlank m = true) → iparseLines n s mid = some s := by
  intro mid
  induction mid with
  | nil => intro n s _; rfl
  | cons m mid ih =>
    intro n s hbl
    rw [iparseLines_cons, processLineI_blank s n (hbl m (by simp))]
    exact ih (n + 1) s (fun x hx => hbl x (by simp [hx]))

theorem adjacent_line_never_nests
    (pre : List (List Char)) (L1 : List Char) (mid : List (List Char))
    (L2 : List Char) (post : List (List Char))
    (hb1 : isBlank L1 = false) (hb2 : isBlank L2 = false)
    (hmid : ∀ m ∈ mid, isBlank m = true)
    (hle : wsCount L2 ≤ wsCount L1) (hw1 : wsCount L1 < 2 ^ 31)
    (t u : ITree)
    (hpt : iparse (pre ++ (L1 :: (mid ++ (L2 :: post)))) = some t)
    (hu : OccursT u t) (hki : u.key.fst = pre.length + 1) :
    u.children = [] := by
  have hw2 : wsCount L2 < 2 ^ 31 := by omega
  have ha1 : asI32 (wsCount L1) = ((wsCount L1 : Nat) : Int) := asI32_of_lt _ hw1
  have ha2 : asI32 (wsCount L2) = ((wsCount L2 : Nat) : Int) := asI32_of_lt _ hw2
  have hle2 : ((wsCount L2 : Nat) : Int) ≤ ((wsCount L1 : Nat) : Int) := by
    exact_mod_cast hle
  rw [iparse] at hpt
  cases hrun : iparseLines 1 [(ITree.mk (0, []) [], -1)] (pre ++ (L1 :: (mid ++ (L2 :: post)))) with
  | none => rw [hrun] at hpt; exact absurd hpt (by simp)
  | some sfin =>
    rw [hrun] at hpt
    rw [iparseLines_append] at hrun
    cases hs1 : iparseLines 1 [(ITree.mk (0, []) [], -1)] pre with
    | none => rw [hs1] at hrun; exact absurd hrun (by simp)
    | some s1 =>
      rw [hs1] at hrun
      have hrun2 : iparseLines (1 + pre.length) s1 (L1 :: (mid ++ (L2 :: post))) = some sfin :=
        hrun
      rw [Nat.add_comm 1 pre.length] at hrun2
      rw [iparseLines_cons] at hrun2
      cases hp1 : processLineI s1 (pre.length + 1, L1) with
      | none => rw [hp1] at hrun2; exact absurd hrun2 (by simp)
      | some s2 =>
        rw [hp1] at hrun2
        have hrun2b : iparseLines (pre.length + 1 + 1) s2 (mid ++ (L2 :: post)) = some sfin :=
          hrun2
        rw [iparseLines_append, iparseLines_blank mid (pre.length + 1 + 1) s2 hmid] at hrun2b
        have hrun3 : iparseLines (pre.length + 1 + 1 + mid.length) s2 (L2 :: post)
            = some sfin := hrun2b
        rw [iparseLines_cons] at hrun3
        cases hp2 : processLineI s2 (pre.length + 1 + 1 + mid.length, L2) with
        | none => rw [hp2] at hrun3; exact absurd hrun3 (by simp)
        | some s3 =>
          rw [hp2] at hrun3
          have hrun4 : iparseLines (pre.length + 1 + 1 + mid.length + 1) s3 post
              = some sfin := hrun3
          have habs0 : AbsentStack (pre.length + 1) [(ITree.mk (0, []) [], -1)] := by
            intro e he
            have he2 : e = (ITree.mk (0, []) [], -1) := by simpa using he
            subst he2
            intro v hv
            rw [occursT_leaf hv]
            intro hc
            simp [ITree.key] at hc
          have habs1 : AbsentStack (pre.length + 1) s1 :=
            absent_iparseLines pre 1 [(ITree.mk (0, []) [], -1)] s1
              (Or.inl (by omega)) habs0 hs1
          obtain ⟨r1, s0, hbd1, hre1, hcs1, hs2eq⟩ := processLineI_some_nonblank hb1 hp1
          have habsS0 : AbsentStack (pre.length + 1) s0 :=
            absentStack_closeStackI (asI32 (wsCount L1)) s1 s0 habs1 hcs1
          obtain ⟨r2, s4, hbd2, hre2, hcs2, hs3eq⟩ := processLineI_some_nonblank hb2 hp2
          rw [hs2eq] at hcs2
          cases s0 with
          | nil =>
            have hpos : asI32 (wsCount L2) ≤ asI32 (wsCount L1) := by
              rw [ha1, ha2]; exact hle2
            have hcs2b : (if asI32 (wsCount L2) ≤ asI32 (wsCount L1) then none
                else some [(ITree.mk (pre.length + 1, r1) [], asI32 (wsCount L1))])
                = some s4 := hcs2
            rw [if_pos hpos] at hcs2b
            exact absurd hcs2b (by simp)
          | cons y r0 =>
            obtain ⟨p, pl⟩ := y
            have hcg : closeGoI (asI32 (wsCount L2))
                (ITree.mk (pre.length + 1, r1) [], asI32 (wsCount L1))
                ((p, pl) :: r0) = some s4 := hcs2
            rw [closeGoI] at hcg
            have hpos : asI32 (wsCount L2)
                ≤ ((ITree.mk (pre.length + 1, r1) [], asI32 (wsCount L1)) : ITree × Int).2 := by
              show asI32 (wsCount L2) ≤ asI32 (wsCount L1)
              rw [ha1, ha2]; exact hle2
            rw [if_pos hpos] at hcg
            have hfz1 : FrozenStack (pre.length + 1)
                ((appendChildI p (ITree.mk (pre.length + 1, r1) []), pl) :: r0) := by
              refine frozenStack_cons ?_ ?_
              · exact frozenLeaf_append_leafI r1 (habsS0 (p, pl) (by simp))
              · intro e he
                exact absent_to_frozen (habsS0 e (by simp [he]))
            have hfz4 : FrozenStack (pre.length + 1) s4 :=
              frozenStack_closeGoI (asI32 (wsCount L2)) r0
                (appendChildI p (ITree.mk (pre.length + 1, r1) []), pl) s4 hfz1 hcg
            have hfz3 : FrozenStack (pre.length + 1) s3 := by
              rw [hs3eq]
              exact frozenStack_cons (frozenLeaf_newNode r2 (by omega)) hfz4
            have hfzfin : FrozenStack (pre.length + 1) sfin :=
              frozen_iparseLines post (pre.length + 1 + 1 + mid.length + 1) s3 sfin
                (by omega) hfz3 hrun4
            cases sfin with
            | nil => exact absurd hpt (by simp)
            | cons x rest3 =>
              have ht : (flushGoI x rest3).1 = t := by simpa using hpt
              rw [← ht] at hu
              exact (frozen_flushGoI rest3 x hfzfin).2 u hu hki

/-- C1 counterexample: adjacent non-blank lines with `W2 ≤ W1` where the
second line nonetheless ends up as a descendant of the first, because
`ws as i32` wraps the first line's count of `2 ^ 32` leading spaces to
level 0 while the second line is stored at level 1. -/
theorem wrap_breaks_tie_break :
    wsCount [' ', 'b'] ≤ wsCount (wideLine (2 ^ 32))
    ∧ Tree.from_file [wideLine (2 ^ 32), [' ', 'b']]
        = some (Tree.mk [] [Tree.mk ['a'] [Tree.mk ['b'] []]]) := by
  constructor
  · rw [wsCount_wideLine]
    decide
  · have h := processLine_wideLine (2 ^ 32) [(Tree.mk [] [], -1)]
    have ha : asI32 (2 ^ 32) = 0 := by decide
    rw [ha] at h
    have h1 : processLine [(Tree.mk [] [], -1)] (wideLine (2 ^ 32))
        = some [(Tree.mk ['a'] [], 0), (Tree.mk [] [], -1)] := by
      rw [h]
      rfl
    have h2 : parseStack [wideLine (2 ^ 32), [' ', 'b']]
        = some [(Tree.mk ['b'] [], 1), (Tree.mk ['a'] [], 0), (Tree.mk [] [], -1)] := by
      rw [parseStack, parseLines, h1]
      rfl
    rw [Tree.from_file, h2]
    rfl

/-- C1 (amended): the closing rule and tie-break, stated byte-faithfully and
below the i32 wrap threshold. (a) On a well-formed stack (strictly decreasing
levels, sentinel level `-1` at the bottom), a non-blank line whose leading
whitespace count `ws` is below `2 ^ 31` and whose byte slice at `ws` is valid
pops exactly the entries with level `≥ ws` and pushes the new node at level
`ws`: the resulting levels are `ws` followed by the old levels strictly below
`ws`. (b) The instrumented parser erases to the real one. (c) Tie-break: for
adjacent non-blank lines L1, L2 (only blank lines between) with
`wsCount L2 ≤ wsCount L1 < 2 ^ 31`, whenever parsing the whole input
succeeds, the node produced by L1 has no children in the final tree — in
particular L2's node is never a descendant of it. -/
theorem closing_rule_and_tie_break :
    (∀ (s : List (Tree × Int)) (line rest : List Char),
        LevelsSorted (s.map Prod.snd) → bottomLevel s = some (-1) →
        wsCount line < 2 ^ 31 →
        byteDrop (wsCount line) line = some rest → rest.isEmpty = false →
        (processLine s line).map (fun s2 => s2.map Prod.snd)
          = some (((wsCount line : Nat) : Int)
              :: (s.map Prod.snd).filter (fun l => decide (l < ((wsCount line : Nat) : Int)))))
    ∧ (∀ lines, Option.map eraseT (iparse lines) = Tree.from_file lines)
    ∧ (∀ (pre : List (List Char)) (L1 : List Char) (mid : List (List Char))
          (L2 : List Char) (post : List (List Char)),
        isBlank L1 = false → isBlank L2 = false →
        (∀ m ∈ mid, isBlank m = true) →
        wsCount L2 ≤ wsCount L1 → wsCount L1 < 2 ^ 31 →
        ∀ (t u : ITree),
          iparse (pre ++ (L1 :: (mid ++ (L2 :: post)))) = some t →
          OccursT u t → u.key.fst = pre.length + 1 →
          u.children = []) :=
  ⟨fun s line rest h1 h2 h3 h4 h5 => processLine_levels s line rest h1 h2 h3 h4 h5,
   erase_iparse,
   fun pre L1 mid L2 post h1 h2 h3 h4 h5 t u h6 h7 h8 =>
     adjacent_line_never_nests pre L1 mid L2 post h1 h2 h3 h4 h5 t u h6 h7 h8⟩

theorem closing_rule_and_tie_break_inst :
    (processLine [(Tree.mk [] [], -1)] [' ', 'a']).map (fun s2 => s2.map Prod.snd)
        = some [(1 : Int), -1]
    ∧ (ITree.mk (1, ['a']) []).children = [] := by
  constructor
  · have h := closing_rule_and_tie_break.1 [(Tree.mk [] [], -1)] [' ', 'a'] ['a']
      trivial rfl (by decide) rfl (by decide)
    exact h.trans (by decide)
  · have hp : iparse [['a'], ['b']]
        = some (ITree.mk (0, []) [ITree.mk (1, ['a']) [], ITree.mk (2, ['b']) []]) := rfl
    exact closing_rule_and_tie_break.2.2 [] ['a'] [] ['b'] []
      (by decide) (by decide) (by simp) (by decide) (by decide)
      (ITree.mk (0, []) [ITree.mk (1, ['a']) [], ITree.mk (2, ['b']) []])
      (ITree.mk (1, ['a']) []) hp
      (OccursT.child (OccursT.refl _) (by simp [ITree.children])) rfl

end WTP
